import Mathlib

/-!
Verification of the WordListGenerator repository (WordListGenerator.py).

Shallow embedding conventions:
* A Python string is a `List Nat` of Unicode code points (Python `str`
  characters are arbitrary code points, including lone surrogates, so `Nat`
  codes are used rather than `Char`).  Frequently used codes:
  `%` = 37, `(` = 40, `)` = 41, `[` = 91, `-` = 45, `]` = 93, `{` = 123,
  `}` = 125, `|` = 124, newline = 10, `0`..`9` = 48..57.
* `PatternEnumerator.build_chars` produces a Python `set`; the embedding
  returns the added values as a list and set-level claims are stated through
  membership, so duplicates and ordering of the returned list are irrelevant.
* `PatternEnumerator.get_values` is a generator; the embedding returns the
  list of yielded values in order.
* `WordList.visit_pattern` recurses on substituted strings, which need not
  terminate in general; the embedding uses explicit fuel, and running out of
  fuel is reported as an error distinct from a successful run.
* Regex use in the source is over literal alternations built from
  placeholder names and over the three fixed patterns
  `\[.\-.\]`, `\((\w+\|)+\w+\)`, `(%\(.*?\))\{(\d+)\}`; each is embedded as
  a direct scanner with Python `re` semantics (leftmost match, then order of
  alternatives; non-overlapping `finditer`; lazy `.*?`; `.` excludes
  newline).  `\w` is embedded on the ASCII word characters, which covers
  every claim considered here.
-/

namespace WLG

/-- A Python string as its list of code points. -/
abbrev Str := List Nat

/-- Python `string.replace(pat, repl, 1)`: replace the leftmost occurrence of
`pat` (assumed nonempty in every use site) by `repl`. -/
def replaceFirst (pat repl : Str) : Str → Str
  | [] => []
  | c :: t =>
    if pat.isPrefixOf (c :: t) ∧ pat ≠ [] then
      repl ++ (c :: t).drop pat.length
    else
      c :: replaceFirst pat repl t

/-- The scan of Python `string.replace(pat, repl)` (all occurrences,
leftmost, non-overlapping): the first argument counts characters of an
already-matched span still to be passed over before scanning resumes, so
that after a match at some position the scan continues right after the
matched span. -/
def raLoop (pat repl : Str) : Nat → Str → Str
  | n + 1, _ :: t => raLoop pat repl n t
  | _, [] => []
  | 0, c :: t =>
    if pat.isPrefixOf (c :: t) ∧ pat ≠ [] then
      repl ++ raLoop pat repl (pat.length - 1) t
    else
      c :: raLoop pat repl 0 t

/-- Python `string.replace(pat, repl)`: replace every (leftmost,
non-overlapping) occurrence of `pat` (assumed nonempty) by `repl`. -/
def replaceAll (pat repl : Str) (s : Str) : Str :=
  raLoop pat repl 0 s

/-- Python `pat in s` (substring test). -/
def occursIn (pat : Str) : Str → Bool
  | [] => pat.isEmpty
  | c :: t => pat.isPrefixOf (c :: t) || occursIn pat t

/-! ### `PatternEnumerator.get_word_from_file` and the file-backed `get_values`

A file handle opened for reading is embedded as the list of code points not
yet consumed; `file.read(1)` takes the head.  `get_word_from_file` reads one
character into `word`, then keeps reading and appending every character that
is not the delimiter, stopping at the delimiter (discarded) or end of input.
-/

/-- The `while last != delimiter and last:` loop of `get_word_from_file`,
started after the first character was read: returns the characters appended
to the word and the unconsumed rest of the file. -/
def scanTail (delim : Nat) : Str → Str × Str
  | [] => ([], [])
  | c :: t =>
    if c = delim then ([], t)
    else
      let r := scanTail delim t
      (c :: r.1, r.2)

/-- `PatternEnumerator.get_word_from_file(file, delimiter)`: the returned word
and the rest of the file.  Note that when the first character read *is* the
delimiter, the loop body never runs and the word returned is that delimiter
character itself (`word = last = file.read(1)`). -/
def getWordFromFile (delim : Nat) : Str → Str × Str
  | [] => ([], [])
  | c :: t =>
    if c = delim then ([c], t)
    else
      let r := scanTail delim t
      (c :: r.1, r.2)

/-- The `while word:` loop of the file-backed branch of
`PatternEnumerator.get_values`, fused with `get_word_from_file` into one
character-at-a-time scan: the first argument is the word currently being
accumulated (`none` when the next character starts a fresh call to
`get_word_from_file`).  `getValuesFile_step` below proves this agrees with
repeated calls of `getWordFromFile`. -/
def gvLoop (delim : Nat) : Option Str → Str → List Str
  | none, [] => []
  | none, c :: t =>
    if c = delim then [c] :: gvLoop delim none t
    else gvLoop delim (some [c]) t
  | some w, [] => [w]
  | some w, c :: t =>
    if c = delim then w :: gvLoop delim none t
    else gvLoop delim (some (w ++ [c])) t

/-- The list of words the file-backed `get_values` yields from the decoded
file content.  On nonempty content `get_word_from_file` always returns a
nonempty word; on empty content it returns the empty word, which stops the
`while word:` loop. -/
def getValuesFile (delim : Nat) (content : Str) : List Str :=
  gvLoop delim none content

theorem gvLoop_some_eq_scanTail (delim : Nat) :
    ∀ (t : Str) (w : Str), gvLoop delim (some w) t =
      (w ++ (scanTail delim t).1) :: gvLoop delim none (scanTail delim t).2 := by
  intro t
  induction t with
  | nil => intro w; simp [gvLoop, scanTail]
  | cons c u ih =>
    intro w
    by_cases hc : c = delim
    · simp [gvLoop, scanTail, hc]
    · simp only [gvLoop, scanTail, if_neg hc, ih (w ++ [c])]
      simp

/-- The embedding of the `while word:` loop agrees with iterating the
verbatim embedding of `get_word_from_file`: on nonempty content, the first
yielded word and the continuation are exactly what `get_word_from_file`
returns. -/
theorem getValuesFile_step (delim : Nat) (c : Nat) (t : Str) :
    getValuesFile delim (c :: t) =
      (getWordFromFile delim (c :: t)).1 ::
        getValuesFile delim (getWordFromFile delim (c :: t)).2 := by
  by_cases hc : c = delim
  · simp [getValuesFile, gvLoop, getWordFromFile, hc]
  · simp only [getValuesFile, gvLoop, getWordFromFile, if_neg hc]
    simpa using gvLoop_some_eq_scanTail delim t [c]

/-- A decoding oracle: file name and encoding name to decoded content.
Distinct encodings may decode the same bytes to distinct texts. -/
abbrev FileSys := Str → Str → Str

/-- The code points of the literal `"utf-8"`. -/
def utf8Name : Str := [117, 116, 102, 45, 56]

/-- The file-backed branch of `PatternEnumerator.get_values(encoding,
delimiter)`.  The source line is `open(self.filename, encoding="utf-8")`:
the file is always decoded with the literal `"utf-8"`, and the `encoding`
argument is never used. -/
def getValuesFileBacked (fs : FileSys) (filename : Str) (_encoding : Str)
    (delim : Nat) : List Str :=
  getValuesFile delim (fs filename utf8Name)

/-- Modelled from the spec: the file-backed `get_values` as §4.1 documents it
("opens `file_path` for reading using `encoding`"), which decodes the file
with the caller-supplied encoding.  Used only to exhibit the divergence of
the code from the spec for claim C7. -/
def getValuesFileSpec (fs : FileSys) (filename : Str) (encoding : Str)
    (delim : Nat) : List Str :=
  getValuesFile delim (fs filename encoding)

/-! ### `PatternEnumerator.build_chars`

Pass 1 scans the original specification for the regex `\[.\-.\]`
(`finditer`: leftmost, non-overlapping; `.` is any code point except
newline), adds the inclusive code-point range between the two boundary
characters (swapped if descending), and removes the first occurrence of each
matched 5-character text from the working specification.  Pass 2 scans the
range-stripped text for `\((\w+\|)+\w+\)`, adds each `|`-separated word, and
removes the matched text.  Pass 3 adds every remaining character. -/

/-- Matches of `\[.\-.\]` in `finditer` order: the pairs of boundary
characters. -/
def rangeScan : Str → List (Nat × Nat)
  | c0 :: c1 :: c2 :: c3 :: c4 :: rest =>
    if c0 = 91 ∧ c1 ≠ 10 ∧ c2 = 45 ∧ c3 ≠ 10 ∧ c4 = 93 then
      (c1, c3) :: rangeScan rest
    else
      rangeScan (c1 :: c2 :: c3 :: c4 :: rest)
  | _ => []

/-- The values contributed by one range match: every code point from the
smaller boundary to the larger, inclusive, as one-character values. -/
def rangePair (x y : Nat) : List Str :=
  (List.range (max x y + 1 - min x y)).map (fun i => [min x y + i])

/-- ASCII word characters, the embedding of `\w` (see the header note). -/
def isWordChar (c : Nat) : Bool :=
  (48 ≤ c ∧ c ≤ 57) ∨ (65 ≤ c ∧ c ≤ 90) ∨ (97 ≤ c ∧ c ≤ 122) ∨ c = 95

/-- Scanning the body of a candidate alternation group after its `(`:
word characters and `|` are consumed until a `)` closes the group; any other
character means the regex `\((\w+\|)+\w+\)` cannot match at this start. -/
def altBody : Str → Option (Str × Str)
  | [] => none
  | c :: t =>
    if c = 41 then some ([], t)
    else if isWordChar c ∨ c = 124 then
      (altBody t).map (fun r => (c :: r.1, r.2))
    else none

/-- Python `str.split("|")` on code 124. -/
def splitPipe : Str → List Str
  | [] => [[]]
  | c :: t =>
    if c = 124 then [] :: splitPipe t
    else
      match splitPipe t with
      | [] => [[c]]
      | w :: ws => (c :: w) :: ws

/-- A successful `altBody` scan decomposes its input as body ++ `)` ++
rest. -/
theorem altBody_decomp :
    ∀ s b r, altBody s = some (b, r) → s = b ++ 41 :: r := by
  intro s
  induction s with
  | nil => intro b r h; simp [altBody] at h
  | cons c t ih =>
    intro b r h
    by_cases hc : c = 41
    · subst hc
      have h2 : some (([] : Str), t) = some (b, r) := by
        simpa [altBody] using h
      obtain ⟨hb, hr⟩ : ([] : Str) = b ∧ t = r := by
        simpa [Prod.ext_iff] using h2
      rw [← hb, ← hr]
      simp
    · by_cases hw : isWordChar c ∨ c = 124
      · simp only [altBody, if_neg hc, if_pos hw, Option.map_eq_some'] at h
        obtain ⟨⟨b1, r1⟩, h1, h2⟩ := h
        obtain ⟨hb, hr⟩ : c :: b1 = b ∧ r1 = r := by
          simpa [Prod.ext_iff] using h2
        rw [← hb, ← hr]
        simpa using ih b1 r1 h1
      · simp [altBody, hc, hw] at h

/-- The scan of `finditer(r"\((\w+\|)+\w+\)", text)`: the first argument
counts characters of an already-matched span still to be passed over, so
that after a match the scan resumes right after its closing `)`. -/
def asLoop : Nat → Str → List (Str × List Str)
  | n + 1, _ :: t => asLoop n t
  | _, [] => []
  | 0, c :: t =>
    if c = 40 then
      match altBody t with
      | some (b, r) =>
        let ws := splitPipe b
        if 2 ≤ ws.length ∧ ∀ w ∈ ws, w ≠ [] then
          (40 :: b ++ [41], ws) :: asLoop (b.length + 1) t
        else asLoop 0 t
      | none => asLoop 0 t
    else asLoop 0 t

/-- Matches of `\((\w+\|)+\w+\)` in `finditer` order, as (matched text,
split words).  The content between the parentheses must consist of two or
more nonempty word-character runs joined by `|`. -/
def altScan (s : Str) : List (Str × List Str) :=
  asLoop 0 s

/-- `PatternEnumerator.build_chars` on an inline specification: the list of
values put into the `chars` set (claims about the resulting set are stated
through membership, so order and duplicates are irrelevant). -/
def buildChars (spec : Str) : List Str :=
  let rms := rangeScan spec
  let afterR := rms.foldl (fun s p => replaceFirst [91, p.1, 45, p.2, 93] [] s) spec
  let rvals := rms.flatMap (fun p => rangePair p.1 p.2)
  let ams := altScan afterR
  let afterA := ams.foldl (fun s m => replaceFirst m.1 [] s) afterR
  let avals := ams.flatMap (fun m => m.2)
  rvals ++ avals ++ afterA.map (fun c => [c])

/-! ### `WordList`

`WordList.__init__` stores the pattern mapping (a Python dict: insertion
ordered, unique keys — embedded as an association list) and compiles the
combined matcher `(%\(name1\)|%\(name2\)|...)` from the `name` fields in
dict order.  With an empty mapping the join is empty and the compiled regex
is `()`, which matches the empty string at position 0.  Placeholder names in
every claim are free of regex metacharacters, so each alternative is
embedded as the literal token `%(name)`. -/

/-- A `PatternEnumerator` as `WordList` consumes it: its `name` and the
sequence of values its `get_values` yields. -/
structure PatternSrc where
  pname : Str
  values : List Str
  deriving DecidableEq, Repr

/-- The literal token `%(name)`. -/
def tokOf (name : Str) : Str := 37 :: 40 :: (name ++ [41])

/-- The `WordList` construction data used by `run`: the dict entries
(key, enumerator) in insertion order, and `max_words`.  The `max_time`
check is embedded separately as a boolean oracle (see `limitHit`). -/
structure WordListM where
  patterns : List (Str × PatternSrc)
  maxWords : Option Nat

/-- The alternatives of the compiled combined matcher, in order.  An empty
mapping yields the regex `()`, whose single alternative is the empty
string. -/
def regexToks (wl : WordListM) : List Str :=
  if wl.patterns.isEmpty then [[]]
  else wl.patterns.map (fun p => tokOf p.2.pname)

/-- Python dict lookup `self.patterns[pattern]`, `none` meaning `KeyError`. -/
def lookupTok (ps : List (Str × PatternSrc)) (k : Str) : Option PatternSrc :=
  (ps.find? (fun p => p.1 = k)).map (fun p => p.2)

/-- The first alternative (in pattern order) matching at this position,
i.e. a prefix of the remaining text. -/
def firstTokAt (toks : List Str) (s : Str) : Option Str :=
  toks.find? (fun t => t.isPrefixOf s)

/-- `self.regex.search(string)`: the matched text of the leftmost match,
alternatives tried in order at each position. -/
def findFirstTok (toks : List Str) : Str → Option Str
  | [] => firstTokAt toks []
  | c :: t =>
    match firstTokAt toks (c :: t) with
    | some tk => some tk
    | none => findFirstTok toks t

/-- How a run of the generator cascade ends abnormally: the embedding ran
out of fuel (the Python recursion is unbounded), or a `KeyError` was raised
by `self.patterns[pattern]` in `launch_pattern_loop`. -/
inductive RunErr where
  | fuel : RunErr
  | keyErr : Str → RunErr
  deriving DecidableEq, Repr

/-- Chain the per-value sub-generators of `launch_pattern_loop`: words are
yielded in order until the first abnormal end, whose later values are never
reached. -/
def seqResults : List (List Str × Option RunErr) → List Str × Option RunErr
  | [] => ([], none)
  | r :: rs =>
    match r.2 with
    | some e => (r.1, some e)
    | none =>
      let t := seqResults rs
      (r.1 ++ t.1, t.2)

/-- `WordList.visit_pattern(string)` (with `launch_pattern_loop` inlined):
the sequence of fully resolved strings the generator yields, and whether it
ends abnormally.  If no alternative matches, the string itself is yielded;
otherwise the matched token's enumerator is looked up (a missing key raises
`KeyError`) and, for each of its values, the first occurrence of the token
is replaced by the value and the result visited recursively. -/
def visitP (wl : WordListM) : Nat → Str → List Str × Option RunErr
  | 0, _ => ([], some RunErr.fuel)
  | fuel + 1, s =>
    match findFirstTok (regexToks wl) s with
    | none => ([s], none)
    | some tok =>
      match lookupTok wl.patterns tok with
      | none => ([], some (RunErr.keyErr tok))
      | some src =>
        seqResults (src.values.map (fun v => visitP wl fuel (replaceFirst tok v s)))

/-! ### The repetition-suffix preprocessing in `WordList.run`

`for multivalues in finditer(r"(%\(.*?\))\{(\d+)\}", string): string =
string.replace(multivalues.group(), multivalues.group(1) * int(
multivalues.group(2)))` — matches are found in the *original* template
(leftmost, non-overlapping), and for each match *every* occurrence of the
matched text in the working template is replaced by `group(1)` repeated
`group(2)` times.  The lazy `.*?` makes the match close at the first `)` at
or after the `%(` that is immediately followed by `{digits}`; `.` excludes
newline. -/

def isDigitCode (c : Nat) : Bool := 48 ≤ c ∧ c ≤ 57

/-- Maximal digit-run prefix and the rest (`\d+` is greedy). -/
def digitsSplit : Str → Str × Str
  | [] => ([], [])
  | c :: t =>
    if isDigitCode c then
      let r := digitsSplit t
      (c :: r.1, r.2)
    else ([], c :: t)

/-- The value of a digit string, `int(group(2))`. -/
def toNatDigits (ds : Str) : Nat :=
  ds.foldl (fun n c => 10 * n + (c - 48)) 0

/-- Try to match `\{(\d+)\}` here: the repetition count, its digit text, and
the rest after the closing `}`. -/
def braceNum : Str → Option (Nat × Str × Str)
  | [] => none
  | c :: t =>
    if c = 123 then
      if (digitsSplit t).1 ≠ [] ∧ (digitsSplit t).2.head? = some 125 then
        some (toNatDigits (digitsSplit t).1, (digitsSplit t).1,
          (digitsSplit t).2.tail)
      else none
    else none

/-- The lazy search for the closing `)` of `%\(.*?\)\{(\d+)\}`, given the
text after `%(`: the shortest inner text whose following `)` is immediately
followed by `{digits}`.  Returns (inner text, count, digit text, rest after
the `}`); `none` if no such close exists before a newline or the end. -/
def lazyClose : Str → Option (Str × Nat × Str × Str)
  | [] => none
  | c :: t =>
    if c = 10 then none
    else if c = 41 then
      match braceNum t with
      | some (n, ds, r) => some ([], n, ds, r)
      | none => (lazyClose t).map (fun q => (c :: q.1, q.2))
    else (lazyClose t).map (fun q => (c :: q.1, q.2))

theorem digitsSplit_decomp (t : Str) :
    (digitsSplit t).1 ++ (digitsSplit t).2 = t := by
  induction t with
  | nil => simp [digitsSplit]
  | cons c u ih =>
    by_cases hc : isDigitCode c <;> simp [digitsSplit, hc, ih]

/-- A successful `braceNum` decomposes its input as `{` ++ digits ++ `}` ++
rest. -/
theorem braceNum_decomp (s : Str) (n : Nat) (ds r : Str)
    (h : braceNum s = some (n, ds, r)) : s = 123 :: ds ++ 125 :: r := by
  match s with
  | [] => simp [braceNum] at h
  | c :: t =>
    by_cases hc : c = 123
    · simp only [braceNum, if_pos hc] at h
      split at h
      · rename_i hcond
        obtain ⟨-, hhead⟩ := hcond
        obtain ⟨-, hds, hr⟩ : toNatDigits (digitsSplit t).1 = n ∧
            (digitsSplit t).1 = ds ∧ (digitsSplit t).2.tail = r := by
          cases h; exact ⟨rfl, rfl, rfl⟩
        have hsplit : (digitsSplit t).2 = 125 :: r := by
          cases hd : (digitsSplit t).2 with
          | nil => rw [hd] at hhead; simp at hhead
          | cons e r1 =>
            rw [hd] at hhead hr
            simp only [List.head?_cons, Option.some_inj] at hhead
            simp only [List.tail_cons] at hr
            rw [hhead, hr]
        have := digitsSplit_decomp t
        rw [hds, hsplit] at this
        rw [hc, ← this]
        simp
      · exact absurd h (by simp)
    · simp [braceNum, hc] at h

/-- A successful lazy close decomposes its input as inner ++ `)` ++ `{` ++
digits ++ `}` ++ rest. -/
theorem lazyClose_decomp (s : Str) (i : Str) (n : Nat) (ds r : Str)
    (h : lazyClose s = some (i, n, ds, r)) :
    s = i ++ 41 :: 123 :: ds ++ 125 :: r := by
  induction s generalizing i with
  | nil => simp [lazyClose] at h
  | cons c t ih =>
    by_cases h10 : c = 10
    · simp [lazyClose, h10] at h
    · by_cases h41 : c = 41
      · simp only [lazyClose, if_neg h10, if_pos h41] at h
        cases hb : braceNum t with
        | some q =>
          obtain ⟨n1, ds1, r1⟩ := q
          rw [hb, Option.some_inj] at h
          obtain ⟨hi, hn, hds, hr⟩ : ([] : Str) = i ∧ n1 = n ∧ ds1 = ds ∧ r1 = r := by
            simpa [Prod.ext_iff] using h
          have hd := braceNum_decomp t n1 ds1 r1 hb
          rw [← hi, ← hds, ← hr, h41, hd]
          simp
        | none =>
          rw [hb] at h
          simp only [Option.map_eq_some'] at h
          obtain ⟨⟨i1, q1⟩, h1, h2⟩ := h
          obtain ⟨hi, hq⟩ : c :: i1 = i ∧ q1 = (n, ds, r) := by
            simpa [Prod.ext_iff] using h2
          subst hq
          rw [← hi]
          simpa using ih i1 h1
      · simp only [lazyClose, if_neg h10, if_neg h41, Option.map_eq_some'] at h
        obtain ⟨⟨i1, q1⟩, h1, h2⟩ := h
        obtain ⟨hi, hq⟩ : c :: i1 = i ∧ q1 = (n, ds, r) := by
          simpa [Prod.ext_iff] using h2
        subst hq
        rw [← hi]
        simpa using ih i1 h1

/-- One match of the repetition regex: `group(1)` (the `%(...)` text), the
count, and `group()` (the whole matched text including `{N}`). -/
structure RepMatch where
  grp1 : Str
  count : Nat
  data : Str
  deriving DecidableEq, Repr

/-- The scan of `finditer(r"(%\(.*?\))\{(\d+)\}", string)`: the first
argument counts characters of an already-matched span still to be passed
over, so that after a match the scan resumes right after its closing
`}`. -/
def frLoop : Nat → Str → List RepMatch
  | n + 1, _ :: t => frLoop n t
  | _, [] => []
  | 0, [_] => []
  | 0, c :: d :: u =>
    if c = 37 ∧ d = 40 then
      match lazyClose u with
      | some (inner, k, ds, _rest) =>
        { grp1 := 37 :: 40 :: inner ++ [41]
          count := k
          data := (37 :: 40 :: inner ++ [41]) ++ 123 :: ds ++ [125] } ::
          frLoop (inner.length + ds.length + 3) u
      | none => frLoop 0 (d :: u)
    else frLoop 0 (d :: u)

/-- `finditer(r"(%\(.*?\))\{(\d+)\}", string)`: all matches in order (the
scan resumes after each match; the skip of `inner.length + ds.length + 3`
characters of the text after `%(` passes over inner ++ `){` ++ digits ++
`}`, landing exactly on the rest returned by `lazyClose`, by
`lazyClose_decomp`). -/
def findRepMatches (s : Str) : List RepMatch :=
  frLoop 0 s

/-- The repetition-suffix preprocessing of `WordList.run`: for each match of
the repetition regex in the original template, replace every occurrence of
the matched text in the working template by `group(1)` repeated `count`
times. -/
def expandReps (s : Str) : Str :=
  (findRepMatches s).foldl
    (fun w m => replaceAll m.data (List.replicate m.count m.grp1).flatten w) s

/-! ### The emission loop of `WordList.run`

`for word in self.visit_pattern(string): self.counter += 1;
self.output.write(...); if (check_counter and counter >= max_words) or
(check_time and perf_counter() - start_time > max_time): break` — the word
is written first, the limits are checked after.  The wall-clock test
`check_time and perf_counter() - self.start_time > self.max_time` at the
k-th check is embedded as an opaque boolean oracle `timeUp k`; `max_time =
None` is the constant-false oracle. -/

/-- The combined limit test after the `c`-th emission. -/
def limitHit (maxW : Option Nat) (timeUp : Nat → Bool) (c : Nat) : Bool :=
  (match maxW with
   | some m => decide (m ≤ c)
   | none => false) || timeUp c

/-- The emission loop over the words the generator yields: returns the words
actually written and whether the loop broke early. -/
def emitLoop (maxW : Option Nat) (timeUp : Nat → Bool) :
    Nat → List Str → List Str × Bool
  | _, [] => ([], false)
  | c, w :: ws =>
    if limitHit maxW timeUp (c + 1) then ([w], true)
    else
      let r := emitLoop maxW timeUp (c + 1) ws
      (w :: r.1, r.2)

/-- `WordList.run(string)` on a freshly constructed `WordList`
(`counter = 0`): the repetition suffixes are expanded once, the generator
cascade is iterated, and each yielded word is written before the limits are
checked.  Returns the words written and `none` if the run ended normally
(product exhausted or a limit break), or the abnormal end the generator hit
if it was driven that far. -/
def runWordList (wl : WordListM) (fuel : Nat) (timeUp : Nat → Bool)
    (s : Str) : List Str × Option RunErr :=
  let v := visitP wl fuel (expandReps s)
  let r := emitLoop wl.maxWords timeUp 0 v.1
  (r.1, if r.2 then none else v.2)

/-- The oracle embedding `max_time = None`: `check_time` is `False`, so the
wall-clock side of the limit test never fires. -/
def noTimeLimit : Nat → Bool := fun _ => false

/-- A placeholder name free of the structural characters of the token,
range and repetition syntax: no `%`, `(`, `)`, `{` or newline.  Every name
in the repository's own examples (alphanumeric identifiers) satisfies
this. -/
def goodName (n : Str) : Prop :=
  ∀ c ∈ n, c ≠ 37 ∧ c ≠ 40 ∧ c ≠ 41 ∧ c ≠ 123 ∧ c ≠ 10

instance (n : Str) : Decidable (goodName n) := by
  unfold goodName; infer_instance

/-- The code points of the literal `"latin-1"` (fixture for claim C7). -/
def latin1Name : Str := [108, 97, 116, 105, 110, 45, 49]

/-- Fixture decoding oracle for claim C7: one file whose utf-8 decoding is
`AB` and whose decoding under any other encoding is `XY`. -/
def exFS : FileSys := fun _ enc => if enc = utf8Name then [65, 66] else [88, 89]

/-! ## Basic lemmas about the embedded string primitives -/

theorem isPrefixOf_cons_of_ne {a b : Nat} (as bs : Str) (h : a ≠ b) :
    (a :: as).isPrefixOf (b :: bs) = false := by
  simp [List.isPrefixOf, h]

theorem isPrefixOf_self_append (l r : Str) : l.isPrefixOf (l ++ r) = true := by
  induction l with
  | nil => cases r <;> rfl
  | cons a t ih => simpa [List.isPrefixOf] using ih

theorem isPrefixOf_nil_false {l : Str} (h : l ≠ []) :
    l.isPrefixOf ([] : Str) = false := by
  cases l with
  | nil => exact absurd rfl h
  | cons a t => rfl

/-- `replaceFirst` passes over a segment that cannot start a match because
the pattern begins with a character absent from the segment. -/
theorem replaceFirst_append_of_notin (x : Nat) (u repl : Str) :
    ∀ p s : Str, x ∉ p →
      replaceFirst (x :: u) repl (p ++ s) = p ++ replaceFirst (x :: u) repl s := by
  intro p
  induction p with
  | nil => intro s _; simp
  | cons c t ih =>
    intro s hp
    have hc : x ≠ c := fun h => hp (h ▸ List.mem_cons_self c t)
    have ht : x ∉ t := fun h => hp (List.mem_cons_of_mem c h)
    show replaceFirst (x :: u) repl (c :: (t ++ s)) =
      c :: (t ++ replaceFirst (x :: u) repl s)
    rw [replaceFirst, if_neg, ih s ht]
    intro hcon
    have h1 := hcon.1
    rw [isPrefixOf_cons_of_ne _ _ hc] at h1
    exact Bool.false_ne_true h1

/-- `replaceFirst` replaces the match at the head of the string. -/
theorem replaceFirst_head (pat repl s : Str) (h : pat ≠ []) :
    replaceFirst pat repl (pat ++ s) = repl ++ s := by
  cases hp : pat with
  | nil => exact absurd hp h
  | cons a t =>
    have hpre : (a :: t).isPrefixOf (a :: t ++ s) = true := isPrefixOf_self_append _ _
    show replaceFirst (a :: t) repl (a :: (t ++ s)) = repl ++ s
    rw [replaceFirst, if_pos ⟨by simpa using hpre, by simp⟩]
    simp

/-- A string without the pattern's first character is left unchanged. -/
theorem replaceFirst_of_notin (x : Nat) (u repl : Str) (s : Str) (hs : x ∉ s) :
    replaceFirst (x :: u) repl s = s := by
  have h := replaceFirst_append_of_notin x u repl s [] hs
  simpa [replaceFirst] using h

/-- The skip counter of `raLoop` passes over exactly that many
characters. -/
theorem raLoop_skip (pat repl : Str) :
    ∀ u s : Str, raLoop pat repl u.length (u ++ s) = raLoop pat repl 0 s := by
  intro u
  induction u with
  | nil => intro s; rfl
  | cons c t ih =>
    intro s
    show raLoop pat repl (t.length + 1) (c :: (t ++ s)) = raLoop pat repl 0 s
    rw [show raLoop pat repl (t.length + 1) (c :: (t ++ s)) =
      raLoop pat repl t.length (t ++ s) from rfl]
    exact ih s

/-- `replaceAll` passes over a segment without the pattern's first
character. -/
theorem replaceAll_append_of_notin (x : Nat) (u repl : Str) :
    ∀ p s : Str, x ∉ p →
      replaceAll (x :: u) repl (p ++ s) = p ++ replaceAll (x :: u) repl s := by
  intro p
  induction p with
  | nil => intro s _; simp
  | cons c t ih =>
    intro s hp
    have hc : x ≠ c := fun h => hp (h ▸ List.mem_cons_self c t)
    have ht : x ∉ t := fun h => hp (List.mem_cons_of_mem c h)
    show raLoop (x :: u) repl 0 (c :: (t ++ s)) =
      c :: (t ++ replaceAll (x :: u) repl s)
    rw [raLoop, if_neg, ← ih s ht]
    · rfl
    · intro hcon
      have h1 := hcon.1
      rw [isPrefixOf_cons_of_ne _ _ hc] at h1
      exact Bool.false_ne_true h1

/-- `replaceAll` replaces a match at the head and continues after it. -/
theorem replaceAll_head (pat repl s : Str) (h : pat ≠ []) :
    replaceAll pat repl (pat ++ s) = repl ++ replaceAll pat repl s := by
  cases hp : pat with
  | nil => exact absurd hp h
  | cons a t =>
    have hpre : (a :: t).isPrefixOf (a :: t ++ s) = true := isPrefixOf_self_append _ _
    show raLoop (a :: t) repl 0 (a :: (t ++ s)) = repl ++ raLoop (a :: t) repl 0 s
    rw [raLoop, if_pos ⟨by simpa using hpre, by simp⟩]
    rw [show ((a :: t).length - 1) = t.length from rfl]
    rw [raLoop_skip]

/-- A string without the pattern's first character is left unchanged by
`replaceAll`. -/
theorem replaceAll_of_notin (x : Nat) (u repl : Str) (s : Str) (hs : x ∉ s) :
    replaceAll (x :: u) repl s = s := by
  have h := replaceAll_append_of_notin x u repl s [] hs
  simpa [replaceAll, raLoop] using h

/-! ## Lemmas about the combined matcher -/

/-- Two distinct `)`-free names cannot produce tokens one of which matches
where the other is planted: `%(m)` is not a prefix of `%(n)` followed by
anything. -/
theorem namePrefix_false :
    ∀ m n rest : Str, (∀ c ∈ m, c ≠ 41) → (∀ c ∈ n, c ≠ 41) → m ≠ n →
      (m ++ [41]).isPrefixOf (n ++ 41 :: rest) = false := by
  intro m
  induction m with
  | nil =>
    intro n rest _ hn hne
    cases n with
    | nil => exact absurd rfl hne
    | cons c n1 =>
      have : (41 : Nat) ≠ c := fun h => (hn c (List.mem_cons_self c n1)) h.symm
      simpa using isPrefixOf_cons_of_ne ([] : Str) (n1 ++ 41 :: rest) this
  | cons a m1 ih =>
    intro n rest hm hn hne
    cases n with
    | nil =>
      have : a ≠ 41 := hm a (List.mem_cons_self a m1)
      simpa using isPrefixOf_cons_of_ne (m1 ++ [41]) rest this
    | cons c n1 =>
      by_cases hac : a = c
      · subst hac
        have hne1 : m1 ≠ n1 := fun h => hne (by rw [h])
        have h1 := ih n1 rest (fun x hx => hm x (List.mem_cons_of_mem a hx))
          (fun x hx => hn x (List.mem_cons_of_mem a hx)) hne1
        show ((a :: m1) ++ [41]).isPrefixOf ((a :: n1) ++ 41 :: rest) = false
        simpa [List.isPrefixOf] using h1
      · show ((a :: m1) ++ [41]).isPrefixOf ((c :: n1) ++ 41 :: rest) = false
        simpa using isPrefixOf_cons_of_ne (m1 ++ [41]) (n1 ++ 41 :: rest) hac

/-- `%(m)` is not a prefix of the text at a planted distinct token
`%(n)`. -/
theorem tokOf_prefix_false (m n rest : Str) (hm : ∀ c ∈ m, c ≠ 41)
    (hn : ∀ c ∈ n, c ≠ 41) (hne : m ≠ n) :
    (tokOf m).isPrefixOf (tokOf n ++ rest) = false := by
  show (37 :: 40 :: (m ++ [41])).isPrefixOf (37 :: 40 :: (n ++ [41]) ++ rest) = false
  have h := namePrefix_false m n rest hm hn hne
  simp only [List.isPrefixOf, List.cons_append]
  simpa [List.append_assoc] using h

theorem tokOf_inj {m n : Str} (h : tokOf m = tokOf n) : m = n := by
  simp only [tokOf, List.cons.injEq, true_and] at h
  exact List.append_left_inj [41] |>.mp h

/-- A token never matches at a position holding a character other than
`%`. -/
theorem firstTokAt_none_of_head (toks : List Str) (c : Nat) (r : Str)
    (htoks : ∀ t ∈ toks, ∃ u, t = 37 :: u) (hc : c ≠ 37) :
    firstTokAt toks (c :: r) = none := by
  apply List.find?_eq_none.mpr
  intro t ht
  obtain ⟨u, hu⟩ := htoks t ht
  subst hu
  simp [isPrefixOf_cons_of_ne u r (fun h => hc h.symm)]

/-- The search skips a segment free of `%`. -/
theorem findFirstTok_append_of_notin (toks : List Str)
    (htoks : ∀ t ∈ toks, ∃ u, t = 37 :: u) :
    ∀ p s : Str, 37 ∉ p → findFirstTok toks (p ++ s) = findFirstTok toks s := by
  intro p
  induction p with
  | nil => intro s _; rfl
  | cons c t ih =>
    intro s hp
    have hc : c ≠ 37 := fun h => hp (h ▸ List.mem_cons_self c t)
    have ht : (37 : Nat) ∉ t := fun h => hp (List.mem_cons_of_mem c h)
    show findFirstTok toks (c :: (t ++ s)) = findFirstTok toks s
    rw [findFirstTok, firstTokAt_none_of_head toks c _ htoks hc]
    exact ih s ht

/-- On a string free of `%` the search finds nothing. -/
theorem findFirstTok_none_of_notin (toks : List Str)
    (htoks : ∀ t ∈ toks, ∃ u, t = 37 :: u) (s : Str) (hs : 37 ∉ s) :
    findFirstTok toks s = none := by
  have h := findFirstTok_append_of_notin toks htoks s [] hs
  rw [List.append_nil] at h
  rw [h]
  show firstTokAt toks [] = none
  apply List.find?_eq_none.mpr
  intro t ht
  obtain ⟨u, hu⟩ := htoks t ht
  subst hu
  simp [isPrefixOf_nil_false]

/-- The search skips a planted token that no alternative matches: every
alternative is the token of a good name different from this one. -/
theorem findFirstTok_skip_tok (toks : List Str) (s : Str) (hs : goodName s)
    (htoks : ∀ t ∈ toks, ∃ r, t = tokOf r ∧ goodName r ∧ r ≠ s) :
    ∀ rest : Str, findFirstTok toks (tokOf s ++ rest) = findFirstTok toks rest := by
  intro rest
  have htoks37 : ∀ t ∈ toks, ∃ u, t = 37 :: u := by
    intro t ht
    obtain ⟨r, hr, -, -⟩ := htoks t ht
    exact ⟨40 :: (r ++ [41]), by rw [hr]; rfl⟩
  have hat : firstTokAt toks (tokOf s ++ rest) = none := by
    apply List.find?_eq_none.mpr
    intro t ht
    obtain ⟨r, hr, hgr, hrs⟩ := htoks t ht
    subst hr
    rw [tokOf_prefix_false r s rest (fun c hc => (hgr c hc).2.2.1)
      (fun c hc => (hs c hc).2.2.1) hrs]
    simp
  show findFirstTok toks (37 :: (40 :: (s ++ [41]) ++ rest)) = findFirstTok toks rest
  rw [findFirstTok]
  have : firstTokAt toks (37 :: (40 :: (s ++ [41]) ++ rest)) = none := by
    exact hat
  rw [this]
  have h40 : (37 : Nat) ∉ (40 :: (s ++ [41]) : Str) := by
    intro hmem
    rcases List.mem_cons.mp hmem with h | hmem1
    · exact absurd h.symm (by simp)
    · rcases List.mem_append.mp hmem1 with h | h
      · exact (hs 37 h).1 rfl
      · simp at h
  have := findFirstTok_append_of_notin toks htoks37 (40 :: (s ++ [41])) rest h40
  simpa [List.append_assoc] using this

/-! ## Lemmas about the generator cascade and the emission loop -/

/-- When every value's sub-generator ends normally, chaining yields the
concatenation. -/
theorem seqResults_map_ok {α : Type} (l : List α) (g : α → List Str × Option RunErr)
    (f : α → List Str) (h : ∀ v ∈ l, g v = (f v, none)) :
    seqResults (l.map g) = (l.flatMap f, none) := by
  induction l with
  | nil => simp [seqResults]
  | cons v vs ih =>
    have hv := h v (List.mem_cons_self v vs)
    have hrest := ih (fun w hw => h w (List.mem_cons_of_mem v hw))
    simp only [List.map_cons, seqResults, hv, hrest, List.flatMap_cons]

/-- With no limits set, the emission loop writes every word the generator
yields and never breaks. -/
theorem emitLoop_none_noTime :
    ∀ (ws : List Str) (c : Nat), emitLoop none noTimeLimit c ws = (ws, false) := by
  intro ws
  induction ws with
  | nil => intro c; rfl
  | cons w ws ih =>
    intro c
    simp only [emitLoop, limitHit, noTimeLimit, Bool.or_false, ih (c + 1)]
    simp

/-- With `max_words = m` and enough words available, the loop writes the
first `m - c` of them and breaks. -/
theorem emitLoop_take :
    ∀ (ws : List Str) (c m : Nat), c < m → m - c ≤ ws.length →
      emitLoop (some m) noTimeLimit c ws = (ws.take (m - c), true) := by
  intro ws
  induction ws with
  | nil =>
    intro c m hc hlen
    simp only [List.length_nil, Nat.le_zero] at hlen
    omega
  | cons w ws ih =>
    intro c m hc hlen
    by_cases hm : m ≤ c + 1
    · have hmc : m - c = 1 := by omega
      simp only [emitLoop, limitHit, noTimeLimit, Bool.or_false, hmc]
      rw [if_pos (by simpa using hm)]
      simp
    · have h1 : c + 1 < m := by omega
      have h2 : m - (c + 1) ≤ ws.length := by
        simp only [List.length_cons] at hlen
        omega
      simp only [emitLoop, limitHit, noTimeLimit, Bool.or_false]
      rw [if_neg (by simpa using hm), ih (c + 1) m h1 h2]
      have : m - c = (m - (c + 1)) + 1 := by omega
      simp [this]

/-- The loop always writes the first word it is given before any check. -/
theorem emitLoop_first (maxW : Option Nat) (timeUp : Nat → Bool) (c : Nat)
    (w : Str) (ws : List Str) :
    ∃ rest, (emitLoop maxW timeUp c (w :: ws)).1 = w :: rest := by
  by_cases h : limitHit maxW timeUp (c + 1)
  · exact ⟨[], by simp [emitLoop, h]⟩
  · exact ⟨(emitLoop maxW timeUp (c + 1) ws).1, by simp [emitLoop, h]⟩

/-- With an always-tripped time oracle, exactly the first word is written
and the loop breaks. -/
theorem emitLoop_timeUp_true (maxW : Option Nat) (c : Nat) (w : Str)
    (ws : List Str) :
    emitLoop maxW (fun _ => true) c (w :: ws) = ([w], true) := by
  simp [emitLoop, limitHit]

/-- With an empty pattern mapping the compiled regex is `()`, whose single
(empty) alternative matches at position 0 of every string. -/
theorem findFirstTok_empty_tok (s : Str) : findFirstTok [[]] s = some [] := by
  cases s with
  | nil => rfl
  | cons c t => rfl

/-! ## Claim C9 -/

/-- C9: with an empty placeholder mapping, `run` fails on every template
(even one with no placeholder token): the combined matcher `()` matches the
empty string at position 0, and `self.patterns[""]` raises `KeyError`
before anything is emitted. -/
theorem run_empty_mapping_fails (mw : Option Nat) (fuel : Nat)
    (timeUp : Nat → Bool) (s : Str) (hf : 1 ≤ fuel) :
    runWordList ⟨[], mw⟩ fuel timeUp s = ([], some (RunErr.keyErr [])) := by
  obtain ⟨f, rfl⟩ : ∃ f, fuel = f + 1 := ⟨fuel - 1, by omega⟩
  have hv : visitP ⟨[], mw⟩ (f + 1) (expandReps s) =
      ([], some (RunErr.keyErr [])) := by
    rw [visitP]
    rw [show regexToks ⟨[], mw⟩ = [[]] from rfl, findFirstTok_empty_tok]
    rfl
  simp only [runWordList, hv]
  rfl

/-- C9 witness: concrete instance of `run_empty_mapping_fails`. -/
theorem run_empty_mapping_fails_witness :
    runWordList ⟨[], none⟩ 1 noTimeLimit [65, 66] = ([], some (RunErr.keyErr [])) :=
  run_empty_mapping_fails none 1 noTimeLimit [65, 66] (by decide)

/-! ## Claim C8 -/

/-- C8: whenever the generator cascade yields at least one fully resolved
string, `run` writes at least one string no matter how the wall-clock
oracle behaves (the limit check runs only after a write), and with the
oracle constantly tripped — the observable behaviour of `max_time = 0` —
exactly the first string is written and the run ends normally. -/
theorem run_time_zero_emits_first (wl : WordListM) (fuel : Nat)
    (timeUp : Nat → Bool) (s : Str) (w : Str) (ws : List Str)
    (hv : visitP wl fuel (expandReps s) = (w :: ws, none)) :
    1 ≤ (runWordList wl fuel timeUp s).1.length ∧
    runWordList wl fuel (fun _ => true) s = ([w], none) := by
  have key : ∀ t : Nat → Bool, runWordList wl fuel t s =
      ((emitLoop wl.maxWords t 0 (w :: ws)).1,
        if (emitLoop wl.maxWords t 0 (w :: ws)).2 then none else none) := by
    intro t
    simp only [runWordList, hv]
  constructor
  · rw [key timeUp]
    obtain ⟨rest, hrest⟩ := emitLoop_first wl.maxWords timeUp 0 w ws
    simp [hrest]
  · rw [key (fun _ => true), emitLoop_timeUp_true]
    simp

/-- C8 witness: concrete instance of `run_time_zero_emits_first`. -/
theorem run_time_zero_emits_first_witness :
    1 ≤ (runWordList ⟨[(tokOf [97], ⟨[97], [[49], [50]]⟩)], none⟩ 3
      noTimeLimit [37, 40, 97, 41]).1.length ∧
    runWordList ⟨[(tokOf [97], ⟨[97], [[49], [50]]⟩)], none⟩ 3
      (fun _ => true) [37, 40, 97, 41] = ([[49]], none) :=
  run_time_zero_emits_first _ 3 noTimeLimit [37, 40, 97, 41] [49] [[50]]
    (by decide)

/-! ## Claim C2 -/

/-- C2 (amended: `1 ≤ m`): with `max_words = m ≥ 1`, no time limit, and a
template whose full product has more than `m` strings, `run` writes exactly
the first `m` strings and nothing after the `m`-th. -/
theorem run_max_words_cuts (wl : WordListM) (m fuel : Nat) (s : Str)
    (ws : List Str) (hm : wl.maxWords = some m) (h1 : 1 ≤ m)
    (hv : visitP wl fuel (expandReps s) = (ws, none)) (hlen : m < ws.length) :
    runWordList wl fuel noTimeLimit s = (ws.take m, none) ∧
    (runWordList wl fuel noTimeLimit s).1.length = m := by
  have key : runWordList wl fuel noTimeLimit s = (ws.take m, none) := by
    simp only [runWordList, hv, hm]
    rw [emitLoop_take ws 0 m (by omega) (by omega)]
    simp
  refine ⟨key, ?_⟩
  rw [key]
  simp only [List.length_take]
  omega

/-- C2 witness: concrete instance of `run_max_words_cuts`. -/
theorem run_max_words_cuts_witness :
    runWordList ⟨[(tokOf [97], ⟨[97], [[49], [50]]⟩)], some 1⟩ 3
      noTimeLimit [37, 40, 97, 41] = ([[49], [50]].take 1, none) ∧
    (runWordList ⟨[(tokOf [97], ⟨[97], [[49], [50]]⟩)], some 1⟩ 3
      noTimeLimit [37, 40, 97, 41]).1.length = 1 :=
  run_max_words_cuts _ 1 3 [37, 40, 97, 41] [[49], [50]] rfl (by decide)
    (by decide) (by decide)

/-- C2 counterexample: with `max_words = 0` (the claim's `m = 0`) and a
product of 2 > 0 strings, the code still writes 1 string — the counter test
`counter >= max_words` runs only after a write — whereas the claim demands
exactly 0. -/
theorem run_max_words_zero_ctr :
    runWordList ⟨[(tokOf [97], ⟨[97], [[49], [50]]⟩)], some 0⟩ 3
      noTimeLimit [37, 40, 97, 41] = ([[49]], none) ∧
    (visitP ⟨[(tokOf [97], ⟨[97], [[49], [50]]⟩)], some 0⟩ 3
      [37, 40, 97, 41]).1.length = 2 := by
  decide

/-! ## Claim C7 -/

/-- C7: the file-backed `get_values` opens the file with the hardcoded
literal `"utf-8"`, so its output is independent of the `encoding` argument,
contradicting the spec's "opens `file_path` for reading using `encoding`";
on a file whose latin-1 decoding differs from its utf-8 decoding the code
diverges from the spec-modelled behaviour. -/
theorem get_values_encoding_ignored :
    (∀ (fs : FileSys) (fn e1 e2 : Str) (d : Nat),
      getValuesFileBacked fs fn e1 d = getValuesFileBacked fs fn e2 d) ∧
    getValuesFileBacked exFS [102] latin1Name 10 ≠
      getValuesFileSpec exFS [102] latin1Name 10 := by
  refine ⟨fun fs fn e1 e2 d => rfl, ?_⟩
  decide

/-! ## Claim C6 -/

/-- The character-accumulating loop stops at the planted delimiter. -/
theorem scanTail_planted (d : Nat) :
    ∀ p r : Str, d ∉ p → scanTail d (p ++ d :: r) = (p, r) := by
  intro p
  induction p with
  | nil => intro r _; simp [scanTail]
  | cons c t ih =>
    intro r hp
    have hc : ¬(c = d) := fun h => hp (h ▸ List.mem_cons_self c t)
    have ht : d ∉ t := fun h => hp (List.mem_cons_of_mem c h)
    show scanTail d (c :: (t ++ d :: r)) = (c :: t, r)
    rw [scanTail, if_neg hc, ih r ht]

/-- C6 (amended): between two adjacent delimiters the file-backed
`get_values` yields a one-character word equal to the *delimiter itself*
(not an empty string: `word = last = file.read(1)` returns the delimiter
when it is the first character read), and every word after that position is
still yielded. -/
theorem get_values_adjacent_delims (d : Nat) (pre post : Str)
    (hne : pre ≠ []) (hd : d ∉ pre) :
    getValuesFile d (pre ++ d :: d :: post) =
      pre :: [d] :: getValuesFile d post := by
  cases pre with
  | nil => exact absurd rfl hne
  | cons c p =>
    have hc : ¬(c = d) := fun h => hd (h ▸ List.mem_cons_self c p)
    have hp : d ∉ p := fun h => hd (List.mem_cons_of_mem c h)
    show gvLoop d none (c :: (p ++ d :: d :: post)) =
      (c :: p) :: [d] :: getValuesFile d post
    rw [gvLoop, if_neg hc]
    rw [gvLoop_some_eq_scanTail d (p ++ d :: d :: post) [c]]
    rw [scanTail_planted d p (d :: post) hp]
    show (c :: p) :: gvLoop d none (d :: post) = (c :: p) :: [d] :: getValuesFile d post
    rw [gvLoop, if_pos rfl]
    rfl

/-- C6 witness: concrete instance of `get_values_adjacent_delims`. -/
theorem get_values_adjacent_delims_witness :
    getValuesFile 10 ([97] ++ 10 :: 10 :: [98]) =
      [97] :: [10] :: getValuesFile 10 [98] :=
  get_values_adjacent_delims 10 [97] [98] (by decide) (by decide)

/-- C6 counterexample: on content `"a\n\nb"` with delimiter `"\n"` the
yielded words are `["a", "\n", "b"]` — the word at the empty position is
the delimiter character, and no empty-string word is ever yielded (an empty
word would in fact stop the `while word:` loop). -/
theorem get_values_adjacent_delims_ctr :
    getValuesFile 10 [97, 10, 10, 98] = [[97], [10], [98]] ∧
    [] ∉ getValuesFile 10 [97, 10, 10, 98] := by
  decide

/-! ## Claim C4 -/

/-- The range regex has no match in a string without `[`. -/
theorem rangeScan_none : ∀ s : Str, 91 ∉ s → rangeScan s = [] := by
  intro s
  induction s with
  | nil => intro h; rfl
  | cons c t ih =>
    intro h
    have hc : ¬(c = 91) := fun hcc => h (by rw [hcc]; exact List.mem_cons_self 91 t)
    have ht : (91 : Nat) ∉ t := fun hm => h (List.mem_cons_of_mem c hm)
    match t with
    | [] => rfl
    | [_] => rfl
    | [_, _] => rfl
    | [_, _, _] => rfl
    | a :: b :: e :: f :: rest =>
      rw [rangeScan, if_neg (fun hcon => hc hcon.1)]
      exact ih ht

/-- On the exact specification `[X-Y]` with non-newline boundaries the range
regex matches once. -/
theorem rangeScan_single (x y : Nat) (hx : x ≠ 10) (hy : y ≠ 10) :
    rangeScan [91, x, 45, y, 93] = [(x, y)] := by
  rw [rangeScan, if_pos ⟨rfl, hx, rfl, hy, rfl⟩]
  rfl

/-- Removing the pattern from itself leaves nothing. -/
theorem replaceFirst_self (pat : Str) (h : pat ≠ []) :
    replaceFirst pat [] pat = [] := by
  have h1 := replaceFirst_head pat [] [] h
  simpa using h1

/-- `build_chars` on the exact specification `[X-Y]` (non-newline
boundaries) produces exactly the inclusive code-point range with the bounds
ordered. -/
theorem buildChars_range_eval (x y : Nat) (hx : x ≠ 10) (hy : y ≠ 10) :
    buildChars [91, x, 45, y, 93] = rangePair x y := by
  have hscan := rangeScan_single x y hx hy
  have hrem : replaceFirst [91, x, 45, y, 93] [] [91, x, 45, y, 93] = [] :=
    replaceFirst_self _ (by simp)
  simp only [buildChars, hscan, List.foldl_cons, List.foldl_nil, hrem]
  simp [altScan, asLoop]

theorem rangePair_mem (x y : Nat) (v : Str) :
    v ∈ rangePair x y ↔ ∃ c, min x y ≤ c ∧ c ≤ max x y ∧ v = [c] := by
  simp only [rangePair, List.mem_map, List.mem_range]
  constructor
  · rintro ⟨i, hi, rfl⟩
    refine ⟨min x y + i, by omega, ?_, rfl⟩
    rcases Nat.le_total x y with h | h <;> simp [Nat.min_eq_left, Nat.min_eq_right,
      Nat.max_eq_left, Nat.max_eq_right, h] at hi ⊢ <;> omega
  · rintro ⟨c, h1, h2, rfl⟩
    refine ⟨c - min x y, ?_, by rw [Nat.add_sub_cancel' h1]⟩
    rcases Nat.le_total x y with h | h <;> simp [Nat.min_eq_left, Nat.min_eq_right,
      Nat.max_eq_left, Nat.max_eq_right, h] at h1 h2 ⊢ <;> omega

/-- C4 (amended: boundaries other than newline, which `.` cannot match):
parsing `[X-Y]` produces the set of every character whose code point lies
in the inclusive range between the two boundaries with the bounds ordered,
and `[X-Y]` and `[Y-X]` produce identical value sets. -/
theorem build_chars_range_symmetric (x y : Nat) (hx : x ≠ 10) (hy : y ≠ 10) :
    (∀ v, v ∈ buildChars [91, x, 45, y, 93] ↔
      ∃ c, min x y ≤ c ∧ c ≤ max x y ∧ v = [c]) ∧
    buildChars [91, x, 45, y, 93] = buildChars [91, y, 45, x, 93] := by
  constructor
  · intro v
    rw [buildChars_range_eval x y hx hy]
    exact rangePair_mem x y v
  · rw [buildChars_range_eval x y hx hy, buildChars_range_eval y x hy hx]
    simp only [rangePair, Nat.min_comm, Nat.max_comm]

/-- C4 witness: `[1-3]` and `[3-1]` (codes 49, 51), instantiating
`build_chars_range_symmetric`. -/
theorem build_chars_range_symmetric_witness :
    (∀ v, v ∈ buildChars [91, 49, 45, 51, 93] ↔
      ∃ c, min 49 51 ≤ c ∧ c ≤ max 49 51 ∧ v = [c]) ∧
    buildChars [91, 49, 45, 51, 93] = buildChars [91, 51, 45, 49, 93] :=
  build_chars_range_symmetric 49 51 (by decide) (by decide)

/-- C4 counterexample: with X = Y = newline the pattern `\[.\-.\]` cannot
match (`.` excludes newline), the five characters fall through to the
literal pass, and the produced set is not the code-point range `{10}` — it
contains `[` among others.  So the claim fails for the pair
(newline, newline). -/
theorem build_chars_range_newline_ctr :
    ¬ (∀ v, v ∈ buildChars [91, 10, 45, 10, 93] ↔
        ∃ c, min 10 10 ≤ c ∧ c ≤ max 10 10 ∧ v = [c]) := by
  intro h
  have h91 : [91] ∈ buildChars [91, 10, 45, 10, 93] := by decide
  obtain ⟨c, h1, h2, h3⟩ := (h [91]).mp h91
  simp only [Nat.min_self, Nat.max_self] at h1 h2
  have : (91 : Nat) = c := by simpa using h3
  omega

/-! ## Claim C5 -/

/-- An alphanumeric code point: digit, uppercase or lowercase ASCII
letter. -/
def isAlnum (c : Nat) : Prop :=
  (48 ≤ c ∧ c ≤ 57) ∨ (65 ≤ c ∧ c ≤ 90) ∨ (97 ≤ c ∧ c ≤ 122)

instance (c : Nat) : Decidable (isAlnum c) := by
  unfold isAlnum; infer_instance

/-- The text `word1|word2|...|wordN` of a pipe-alternation. -/
def pipeJoin : List Str → Str
  | [] => []
  | [w] => w
  | w :: ws => w ++ 124 :: pipeJoin ws

/-- Everything in the joined text is a word character or the pipe. -/
theorem pipeJoin_mem (ws : List Str) (c : Nat) (h : c ∈ pipeJoin ws) :
    c = 124 ∨ ∃ w ∈ ws, c ∈ w := by
  induction ws with
  | nil => simp [pipeJoin] at h
  | cons w ws ih =>
    cases ws with
    | nil =>
      simp only [pipeJoin] at h
      exact Or.inr ⟨w, List.mem_cons_self w [], h⟩
    | cons w1 ws1 =>
      simp only [pipeJoin] at h
      rcases List.mem_append.mp h with hw | hrest
      · exact Or.inr ⟨w, List.mem_cons_self _ _, hw⟩
      · rcases List.mem_cons.mp hrest with h124 | htail
        · exact Or.inl h124
        · rcases ih htail with h124 | ⟨w2, hw2, hc2⟩
          · exact Or.inl h124
          · exact Or.inr ⟨w2, List.mem_cons_of_mem _ hw2, hc2⟩

/-- The body scan closes at the planted `)` when the body is made of word
characters and pipes. -/
theorem altBody_planted (b r : Str)
    (hb : ∀ c ∈ b, (isWordChar c ∨ c = 124) ∧ c ≠ 41) :
    altBody (b ++ 41 :: r) = some (b, r) := by
  induction b with
  | nil => simp [altBody]
  | cons c t ih =>
    have hc := hb c (List.mem_cons_self c t)
    have ht : ∀ x ∈ t, (isWordChar x ∨ x = 124) ∧ x ≠ 41 :=
      fun x hx => hb x (List.mem_cons_of_mem c hx)
    show altBody (c :: (t ++ 41 :: r)) = some (c :: t, r)
    rw [altBody, if_neg hc.2]
    have hw : (isWordChar c = true ∨ c = 124) := by
      rcases hc.1 with h | h
      · exact Or.inl h
      · exact Or.inr h
    rw [if_pos hw, ih ht]
    rfl

/-- `split("|")` on a pipe-free word. -/
theorem splitPipe_no_pipe (w : Str) (h : (124 : Nat) ∉ w) :
    splitPipe w = [w] := by
  induction w with
  | nil => rfl
  | cons c t ih =>
    have hc : ¬(c = 124) := fun hcc => h (by rw [hcc]; exact List.mem_cons_self _ _)
    have ht : (124 : Nat) ∉ t := fun hm => h (List.mem_cons_of_mem c hm)
    rw [splitPipe, if_neg hc, ih ht]

/-- `split("|")` peels the first pipe-free word off the front. -/
theorem splitPipe_planted (w r : Str) (h : (124 : Nat) ∉ w) :
    splitPipe (w ++ 124 :: r) = w :: splitPipe r := by
  induction w with
  | nil => simp [splitPipe]
  | cons c t ih =>
    have hc : ¬(c = 124) := fun hcc => h (by rw [hcc]; exact List.mem_cons_self _ _)
    have ht : (124 : Nat) ∉ t := fun hm => h (List.mem_cons_of_mem c hm)
    show splitPipe (c :: (t ++ 124 :: r)) = (c :: t) :: splitPipe r
    rw [splitPipe, if_neg hc, ih ht]

/-- Splitting the joined alternation text recovers the words. -/
theorem splitPipe_pipeJoin (ws : List Str) (hne : ws ≠ [])
    (h : ∀ w ∈ ws, (124 : Nat) ∉ w) :
    splitPipe (pipeJoin ws) = ws := by
  induction ws with
  | nil => exact absurd rfl hne
  | cons w ws ih =>
    cases ws with
    | nil =>
      show splitPipe (pipeJoin [w]) = [w]
      rw [show pipeJoin [w] = w from rfl]
      exact splitPipe_no_pipe w (h w (List.mem_cons_self w []))
    | cons w1 ws1 =>
      show splitPipe (w ++ 124 :: pipeJoin (w1 :: ws1)) = w :: w1 :: ws1
      rw [splitPipe_planted w _ (h w (List.mem_cons_self _ _))]
      rw [ih (by simp) (fun x hx => h x (List.mem_cons_of_mem w hx))]

/-- The skip counter of `asLoop` passes over exactly that many
characters. -/
theorem asLoop_skip :
    ∀ u s : Str, asLoop u.length (u ++ s) = asLoop 0 s := by
  intro u
  induction u with
  | nil => intro s; rfl
  | cons c t ih =>
    intro s
    show asLoop (t.length + 1) (c :: (t ++ s)) = asLoop 0 s
    rw [show asLoop (t.length + 1) (c :: (t ++ s)) = asLoop t.length (t ++ s) from rfl]
    exact ih s

/-- C5: `build_chars` on an inline specification that is exactly one
parenthesized pipe-alternation of two or more nonempty alphanumeric words
produces exactly those whole words as values — each word atomically, and no
individual characters. -/
theorem build_chars_alternation (ws : List Str) (h2 : 2 ≤ ws.length)
    (hws : ∀ w ∈ ws, w ≠ [] ∧ ∀ c ∈ w, isAlnum c) :
    buildChars (40 :: pipeJoin ws ++ [41]) = ws := by
  have hwordpipe : ∀ c ∈ pipeJoin ws, (isWordChar c ∨ c = 124) ∧ c ≠ 41 := by
    intro c hc
    rcases pipeJoin_mem ws c hc with h124 | ⟨w, hw, hcw⟩
    · exact ⟨Or.inr h124, by omega⟩
    · have := (hws w hw).2 c hcw
      unfold isAlnum at this
      refine ⟨Or.inl ?_, by omega⟩
      simp only [isWordChar, decide_eq_true_eq]
      omega
  have h91 : (91 : Nat) ∉ (40 :: pipeJoin ws ++ [41] : Str) := by
    intro hmem
    rcases List.mem_cons.mp hmem with h | hmem1
    · omega
    · rcases List.mem_append.mp hmem1 with h | h
      · rcases (hwordpipe 91 h).1 with hw | hp
        · exact absurd hw (by decide)
        · omega
      · simp at h
  have hsplit : splitPipe (pipeJoin ws) = ws :=
    splitPipe_pipeJoin ws (by intro h; rw [h] at h2; simp at h2)
      (by
        intro w hw hcw
        have := (hws w hw).2 _ hcw
        unfold isAlnum at this
        omega)
  have hscan : rangeScan (40 :: pipeJoin ws ++ [41]) = [] := rangeScan_none _ h91
  have hbody : altBody (pipeJoin ws ++ 41 :: ([] : Str)) = some (pipeJoin ws, []) :=
    altBody_planted _ _ hwordpipe
  have hskip : asLoop (pipeJoin ws).length.succ (pipeJoin ws ++ [41]) = [] := by
    have h := asLoop_skip (pipeJoin ws ++ [41]) []
    simp only [List.append_nil, List.length_append, List.length_cons,
      List.length_nil] at h
    simpa using h
  have halt : altScan (40 :: pipeJoin ws ++ [41]) =
      [(40 :: pipeJoin ws ++ [41], ws)] := by
    show asLoop 0 (40 :: (pipeJoin ws ++ [41])) = _
    rw [asLoop, if_pos rfl]
    rw [show (pipeJoin ws ++ [41] : Str) = pipeJoin ws ++ 41 :: [] from rfl, hbody]
    simp only [hsplit]
    rw [if_pos ⟨h2, fun w hw => (hws w hw).1⟩]
    rw [show (pipeJoin ws ++ 41 :: [] : Str) = pipeJoin ws ++ [41] from rfl]
    rw [show ((pipeJoin ws).length + 1) = (pipeJoin ws).length.succ from rfl, hskip]
  have hrem : replaceFirst (40 :: pipeJoin ws ++ [41]) []
      (40 :: pipeJoin ws ++ [41]) = [] :=
    replaceFirst_self _ (by simp)
  simp only [buildChars, hscan, List.foldl_nil, List.flatMap_nil, halt,
    List.foldl_cons, hrem, List.flatMap_cons, List.map_nil]
  simp

/-- C5 witness: `(word1|word2)`, instantiating `build_chars_alternation`. -/
theorem build_chars_alternation_witness :
    buildChars (40 :: pipeJoin [[119, 111, 114, 100, 49],
      [119, 111, 114, 100, 50]] ++ [41]) =
      [[119, 111, 114, 100, 49], [119, 111, 114, 100, 50]] :=
  build_chars_alternation _ (by decide) (by decide)

/-! ## Lemmas about the repetition-suffix preprocessing -/

/-- `braceNum` needs an opening brace. -/
theorem braceNum_none_of_no_brace (l : Str) (h : (123 : Nat) ∉ l) :
    braceNum l = none := by
  cases l with
  | nil => rfl
  | cons c t =>
    have hc : ¬(c = 123) := fun hcc => h (by rw [hcc]; exact List.mem_cons_self _ _)
    simp [braceNum, hc]

/-- Without a brace anywhere, no close of the lazy pattern can succeed. -/
theorem lazyClose_none_of_no_brace : ∀ l : Str, (123 : Nat) ∉ l →
    lazyClose l = none := by
  intro l
  induction l with
  | nil => intro h; rfl
  | cons c t ih =>
    intro h
    have ht : (123 : Nat) ∉ t := fun hm => h (List.mem_cons_of_mem c hm)
    by_cases h10 : c = 10
    · simp [lazyClose, h10]
    · by_cases h41 : c = 41
      · rw [lazyClose, if_neg h10, if_pos h41, braceNum_none_of_no_brace t ht,
          ih ht]
        rfl
      · rw [lazyClose, if_neg h10, if_neg h41, ih ht]
        rfl

/-- The skip counter of `frLoop` passes over exactly that many
characters. -/
theorem frLoop_skip :
    ∀ u s : Str, frLoop u.length (u ++ s) = frLoop 0 s := by
  intro u
  induction u with
  | nil => intro s; rfl
  | cons c t ih =>
    intro s
    show frLoop (t.length + 1) (c :: (t ++ s)) = frLoop 0 s
    rw [show frLoop (t.length + 1) (c :: (t ++ s)) = frLoop t.length (t ++ s) from rfl]
    exact ih s

/-- The repetition scan passes over a segment without `%` (a match must
start with `%`, and on a non-`%` character the scan advances one
position). -/
theorem frLoop_append_of_notin :
    ∀ p s : Str, (37 : Nat) ∉ p → frLoop 0 (p ++ s) = frLoop 0 s := by
  intro p
  induction p with
  | nil => intro s _; rfl
  | cons c t ih =>
    intro s hp
    have hc : ¬(c = 37) := fun hcc => hp (by rw [hcc]; exact List.mem_cons_self _ _)
    have ht : (37 : Nat) ∉ t := fun hm => hp (List.mem_cons_of_mem c hm)
    show frLoop 0 (c :: (t ++ s)) = frLoop 0 s
    match hts : t ++ s with
    | [] =>
      have : frLoop 0 s = [] := by
        have hs : s = [] := by
          rcases List.append_eq_nil.mp hts with ⟨-, h2⟩
          exact h2
        rw [hs]
        rfl
      rw [this]
      rfl
    | d :: u =>
      rw [frLoop, if_neg (fun hcon => hc hcon.1), ← hts]
      exact ih s ht

/-- A string without `%` has no repetition match. -/
theorem frLoop_none_of_notin (s : Str) (hs : (37 : Nat) ∉ s) :
    frLoop 0 s = [] := by
  have h := frLoop_append_of_notin s [] hs
  rw [List.append_nil] at h
  rw [h]
  rfl

/-- The repetition scan passes over a planted token when no brace can close
a repetition suffix afterwards. -/
theorem frLoop_skip_tok (x : Str) (hx : goodName x) :
    ∀ rest : Str, (123 : Nat) ∉ rest →
      frLoop 0 (tokOf x ++ rest) = frLoop 0 rest := by
  intro rest hrest
  have hu : (123 : Nat) ∉ (x ++ 41 :: rest : Str) := by
    intro hm
    rcases List.mem_append.mp hm with h | h
    · exact (hx 123 h).2.2.2.1 rfl
    · rcases List.mem_cons.mp h with h | h
      · omega
      · exact hrest h
  have hshape : (tokOf x ++ rest : Str) = 37 :: 40 :: (x ++ 41 :: rest) := by
    simp [tokOf]
  rw [hshape]
  rw [frLoop, if_pos ⟨rfl, rfl⟩]
  rw [lazyClose_none_of_no_brace _ hu]
  have h37 : (37 : Nat) ∉ (40 :: x ++ [41] : Str) := by
    intro hm
    rcases List.mem_cons.mp hm with h | h
    · omega
    · rcases List.mem_append.mp h with h | h
      · exact (hx 37 h).1 rfl
      · simp at h
  have h := frLoop_append_of_notin (40 :: x ++ [41]) rest h37
  simpa [List.append_assoc] using h

theorem digitsSplit_planted (ds r : Str) (hdig : ∀ c ∈ ds, isDigitCode c) :
    digitsSplit (ds ++ 125 :: r) = (ds, 125 :: r) := by
  induction ds with
  | nil => simp [digitsSplit, isDigitCode]
  | cons c t ih =>
    have hc := hdig c (List.mem_cons_self c t)
    have ht := fun x hx => hdig x (List.mem_cons_of_mem c hx)
    show digitsSplit (c :: (t ++ 125 :: r)) = (c :: t, 125 :: r)
    rw [digitsSplit, if_pos hc, ih ht]

theorem braceNum_planted (ds r : Str) (hne : ds ≠ [])
    (hdig : ∀ c ∈ ds, isDigitCode c) :
    braceNum (123 :: ds ++ 125 :: r) = some (toNatDigits ds, ds, r) := by
  show braceNum (123 :: (ds ++ 125 :: r)) = some (toNatDigits ds, ds, r)
  rw [braceNum, if_pos rfl]
  rw [digitsSplit_planted ds r hdig]
  rw [if_pos ⟨hne, rfl⟩]
  simp

/-- The lazy close finds the planted `){digits}`. -/
theorem lazyClose_planted (s ds r : Str) (hs : ∀ c ∈ s, c ≠ 41 ∧ c ≠ 10)
    (hne : ds ≠ []) (hdig : ∀ c ∈ ds, isDigitCode c) :
    lazyClose (s ++ 41 :: 123 :: ds ++ 125 :: r) =
      some (s, toNatDigits ds, ds, r) := by
  induction s with
  | nil =>
    show lazyClose (41 :: (123 :: ds ++ 125 :: r)) = some ([], toNatDigits ds, ds, r)
    rw [lazyClose, if_neg (by omega), if_pos rfl, braceNum_planted ds r hne hdig]
  | cons c t ih =>
    have hc := hs c (List.mem_cons_self c t)
    have ht := fun x hx => hs x (List.mem_cons_of_mem c hx)
    show lazyClose (c :: (t ++ 41 :: 123 :: ds ++ 125 :: r)) =
      some (c :: t, toNatDigits ds, ds, r)
    rw [lazyClose, if_neg hc.2, if_neg hc.1, ih ht]
    rfl

/-- The repetition scan on a template with exactly one planted repetition
suffix `%(s){ds}` (literal-free context): one match, with `group(1)` the
token `%(s)` and the count the value of the digits. -/
theorem findRepMatches_planted (pre s ds post : Str) (hpre : (37 : Nat) ∉ pre)
    (hs : goodName s) (hne : ds ≠ []) (hdig : ∀ c ∈ ds, isDigitCode c)
    (hpost : (37 : Nat) ∉ post) :
    findRepMatches (pre ++ 37 :: 40 :: s ++ 41 :: 123 :: ds ++ 125 :: post) =
      [{ grp1 := tokOf s, count := toNatDigits ds,
         data := tokOf s ++ 123 :: ds ++ [125] }] := by
  show frLoop 0 (pre ++ 37 :: 40 :: s ++ 41 :: 123 :: ds ++ 125 :: post) = _
  rw [show (pre ++ 37 :: 40 :: s ++ 41 :: 123 :: ds ++ 125 :: post : Str) =
    pre ++ (37 :: 40 :: (s ++ 41 :: 123 :: ds ++ 125 :: post)) from by simp]
  rw [frLoop_append_of_notin pre _ hpre]
  rw [frLoop, if_pos ⟨rfl, rfl⟩]
  rw [lazyClose_planted s ds post (fun c hc => ⟨(hs c hc).2.2.1, (hs c hc).2.2.2.2⟩)
    hne hdig]
  dsimp only
  have harr : (s ++ 41 :: 123 :: ds ++ 125 :: post : Str) =
      (s ++ 41 :: 123 :: ds ++ [125]) ++ post := by
    simp
  have hlen : s.length + ds.length + 3 =
      ((s ++ 41 :: 123 :: ds ++ [125] : Str)).length := by
    simp
    omega
  rw [harr, hlen, frLoop_skip, frLoop_none_of_notin post hpost]
  simp [tokOf]

/-- The preprocessing of `run` on a template with exactly one planted
repetition suffix rewrites it to the token repeated `count` times. -/
theorem expandReps_planted (pre s ds post : Str) (hpre : (37 : Nat) ∉ pre)
    (hs : goodName s) (hne : ds ≠ []) (hdig : ∀ c ∈ ds, isDigitCode c)
    (hpost : (37 : Nat) ∉ post) :
    expandReps (pre ++ 37 :: 40 :: s ++ 41 :: 123 :: ds ++ 125 :: post) =
      pre ++ (List.replicate (toNatDigits ds) (tokOf s)).flatten ++ post := by
  rw [expandReps, findRepMatches_planted pre s ds post hpre hs hne hdig hpost]
  simp only [List.foldl_cons, List.foldl_nil]
  have hdata : (pre ++ 37 :: 40 :: s ++ 41 :: 123 :: ds ++ 125 :: post : Str) =
      pre ++ (tokOf s ++ 123 :: ds ++ [125]) ++ post := by
    simp [tokOf]
  rw [hdata]
  have hpat : (tokOf s ++ 123 :: ds ++ [125] : Str) =
      37 :: (40 :: (s ++ [41]) ++ 123 :: ds ++ [125]) := by
    simp [tokOf]
  rw [List.append_assoc pre]
  rw [hpat, replaceAll_append_of_notin _ _ _ pre _ hpre, ← hpat]
  rw [replaceAll_head _ _ post (by simp [tokOf])]
  rw [hpat, replaceAll_of_notin _ _ _ post hpost]
  simp

/-- Without a brace anywhere in the template, the repetition scan finds
nothing. -/
theorem frLoop_none_of_no_brace : ∀ s : Str, (123 : Nat) ∉ s →
    frLoop 0 s = [] := by
  intro s
  induction s with
  | nil => intro h; rfl
  | cons c t ih =>
    intro h
    have ht : (123 : Nat) ∉ t := fun hm => h (List.mem_cons_of_mem c hm)
    match t with
    | [] => rfl
    | d :: u =>
      have hu : (123 : Nat) ∉ u :=
        fun hm => ht (List.mem_cons_of_mem d hm)
      by_cases hcd : c = 37 ∧ d = 40
      · rw [frLoop, if_pos hcd, lazyClose_none_of_no_brace u hu]
        exact ih ht
      · rw [frLoop, if_neg hcd]
        exact ih ht

/-- A template without `{` is left unchanged by the repetition-suffix
preprocessing. -/
theorem expandReps_id_of_no_brace (s : Str) (h : (123 : Nat) ∉ s) :
    expandReps s = s := by
  rw [expandReps]
  rw [show findRepMatches s = [] from frLoop_none_of_no_brace s h]
  rfl

/-- The leftmost search returns the alternative that matches at position
0. -/
theorem findFirstTok_of_firstTokAt (toks : List Str) (s : Str) (tk : Str)
    (hne : s ≠ []) (h : firstTokAt toks s = some tk) :
    findFirstTok toks s = some tk := by
  cases s with
  | nil => exact absurd rfl hne
  | cons c t => rw [findFirstTok, h]

/-- Flat-mapping singletons is mapping. -/
theorem flatMap_singleton_eq_map {α β : Type} (l : List α) (g : α → β) :
    l.flatMap (fun x => [g x]) = l.map g := by
  induction l with
  | nil => rfl
  | cons x xs ih => simp [ih]

/-- The length of the two-level product enumeration. -/
theorem length_flatMap_map {α β γ : Type} (l1 : List α) (l2 : List β)
    (g : α → β → γ) :
    (l1.flatMap (fun x => (l2.map (g x)))).length = l1.length * l2.length := by
  induction l1 with
  | nil => simp
  | cons x l ih =>
    simp only [List.flatMap_cons, List.length_append, List.length_map, ih,
      List.length_cons, Nat.succ_mul]
    omega

/-! ## Claim C3 -/

/-- C3 (amended: the text before the suffix contains no other `%`, and the
text after it contains no `%` and no `{`, so that the lazy preprocessing
regex matches exactly the planted `%(x){2}`): running `run` on a template
`pre ++ %(x){2} ++ post` emits exactly the same sequence as on
`pre ++ %(x)%(x) ++ post`, for every `WordList`, because the suffix is
expanded once, before recursive substitution starts. -/
theorem run_rep_suffix_equiv (wl : WordListM) (fuel : Nat) (timeUp : Nat → Bool)
    (x pre post : Str) (hx : goodName x) (hpre : (37 : Nat) ∉ pre)
    (hpost : (37 : Nat) ∉ post) (hpostb : (123 : Nat) ∉ post) :
    runWordList wl fuel timeUp (pre ++ tokOf x ++ 123 :: 50 :: 125 :: post) =
      runWordList wl fuel timeUp (pre ++ tokOf x ++ tokOf x ++ post) := by
  have h123tok : (123 : Nat) ∉ (tokOf x ++ post : Str) := by
    intro hm
    rcases List.mem_append.mp hm with h | h
    · simp [tokOf] at h
      exact (hx 123 h).2.2.2.1 rfl
    · exact hpostb h
  have h1 : expandReps (pre ++ tokOf x ++ 123 :: 50 :: 125 :: post) =
      pre ++ tokOf x ++ tokOf x ++ post := by
    have he := expandReps_planted pre x [50] post hpre hx (by simp)
      (by decide) hpost
    have hform : (pre ++ tokOf x ++ 123 :: 50 :: 125 :: post : Str) =
        pre ++ 37 :: 40 :: x ++ 41 :: 123 :: [50] ++ 125 :: post := by
      simp [tokOf]
    have hrepl : (List.replicate (toNatDigits [50]) (tokOf x)).flatten =
        tokOf x ++ (tokOf x ++ []) := by
      rw [show toNatDigits [50] = 2 from rfl]
      rfl
    rw [hform, he, hrepl]
    simp
  have hfrm : findRepMatches (pre ++ tokOf x ++ tokOf x ++ post) = [] := by
    show frLoop 0 (pre ++ tokOf x ++ tokOf x ++ post) = []
    rw [show (pre ++ tokOf x ++ tokOf x ++ post : Str) =
      pre ++ (tokOf x ++ (tokOf x ++ post)) from by simp]
    rw [frLoop_append_of_notin pre _ hpre]
    rw [frLoop_skip_tok x hx (tokOf x ++ post) h123tok]
    rw [frLoop_skip_tok x hx post hpostb]
    exact frLoop_none_of_notin post hpost
  have h2 : expandReps (pre ++ tokOf x ++ tokOf x ++ post) =
      pre ++ tokOf x ++ tokOf x ++ post := by
    rw [expandReps, hfrm]
    rfl
  simp only [runWordList, h1, h2]

/-- C3 witness: `%(x){2}` with `x` bound to `["1","2"]` behaves like
`%(x)%(x)` and yields the four combinations 11, 12, 21, 22 (instantiating
`run_rep_suffix_equiv` at empty context). -/
theorem run_rep_suffix_equiv_witness :
    runWordList ⟨[(tokOf [120], ⟨[120], [[49], [50]]⟩)], none⟩ 6 noTimeLimit
        ([] ++ tokOf [120] ++ 123 :: 50 :: 125 :: []) =
      runWordList ⟨[(tokOf [120], ⟨[120], [[49], [50]]⟩)], none⟩ 6 noTimeLimit
        ([] ++ tokOf [120] ++ tokOf [120] ++ []) ∧
    runWordList ⟨[(tokOf [120], ⟨[120], [[49], [50]]⟩)], none⟩ 6 noTimeLimit
        ([] ++ tokOf [120] ++ 123 :: 50 :: 125 :: []) =
      ([[49, 49], [49, 50], [50, 49], [50, 50]], none) :=
  ⟨run_rep_suffix_equiv _ 6 noTimeLimit [120] [] [] (by decide) (by decide)
      (by decide) (by decide),
   by decide⟩

/-- C3 counterexample: the template `"%(b%(a){2}"` contains the
repetition-suffixed token `%(a){2}` (`a` registered, bound to
`["1","2"]`), yet running on it differs from running on the template with
`%(a){2}` replaced by the literal `%(a)%(a)` — the lazy preprocessing regex
matches the *larger* span `%(b%(a){2}` (its `group(1)` is `%(b%(a)`), so
the claim's universal statement fails. -/
theorem run_rep_suffix_equiv_ctr :
    occursIn [37, 40, 97, 41, 123, 50, 125]
      [37, 40, 98, 37, 40, 97, 41, 123, 50, 125] = true ∧
    runWordList ⟨[(tokOf [97], ⟨[97], [[49], [50]]⟩)], none⟩ 6 noTimeLimit
        [37, 40, 98, 37, 40, 97, 41, 123, 50, 125] ≠
      runWordList ⟨[(tokOf [97], ⟨[97], [[49], [50]]⟩)], none⟩ 6 noTimeLimit
        [37, 40, 98, 37, 40, 97, 41, 37, 40, 97, 41] := by
  decide

/-! ## Claim C10 -/

/-- C10 (amended: the planted `%(s){N}` is the only `%`-construct in the
template — no other `%` before or after — and the mapping is nonempty with
well-formed names): the repetition preprocessing applies to `%(s){N}` even
though `s` is unregistered, the suffix is expanded to N consecutive copies
of `%(s)`, no registered token ever matches, and the copies are emitted
verbatim in the single output string. -/
theorem run_rep_unregistered (wl : WordListM) (fuel : Nat)
    (s pre post ds : Str) (hne : wl.patterns ≠ []) (hmw : wl.maxWords = none)
    (hnames : ∀ p ∈ wl.patterns, goodName p.2.pname ∧ p.2.pname ≠ s)
    (hs : goodName s) (hpre : (37 : Nat) ∉ pre) (hpost : (37 : Nat) ∉ post)
    (hds : ds ≠ []) (hdig : ∀ c ∈ ds, isDigitCode c) (hfuel : 1 ≤ fuel) :
    runWordList wl fuel noTimeLimit
        (pre ++ 37 :: 40 :: s ++ 41 :: 123 :: ds ++ 125 :: post) =
      ([pre ++ (List.replicate (toNatDigits ds) (tokOf s)).flatten ++ post],
        none) := by
  obtain ⟨f, rfl⟩ : ∃ f, fuel = f + 1 := ⟨fuel - 1, by omega⟩
  have hexp := expandReps_planted pre s ds post hpre hs hds hdig hpost
  have hmap : regexToks wl = wl.patterns.map (fun p => tokOf p.2.pname) := by
    rw [regexToks, if_neg (by simpa [List.isEmpty_iff] using hne)]
  have htoks : ∀ t ∈ regexToks wl, ∃ r, t = tokOf r ∧ goodName r ∧ r ≠ s := by
    intro t ht
    rw [hmap] at ht
    obtain ⟨p, hp, hpt⟩ := List.mem_map.mp ht
    exact ⟨p.2.pname, hpt.symm, (hnames p hp).1, (hnames p hp).2⟩
  have htoks37 : ∀ t ∈ regexToks wl, ∃ u, t = 37 :: u := by
    intro t ht
    obtain ⟨r, hr, -, -⟩ := htoks t ht
    exact ⟨40 :: (r ++ [41]), by rw [hr]; rfl⟩
  have hjoin : ∀ n : Nat, findFirstTok (regexToks wl)
      ((List.replicate n (tokOf s)).flatten ++ post) = none := by
    intro n
    induction n with
    | zero =>
      simpa using findFirstTok_none_of_notin _ htoks37 post hpost
    | succ n ih =>
      rw [show ((List.replicate (n + 1) (tokOf s)).flatten : Str) =
        tokOf s ++ (List.replicate n (tokOf s)).flatten from by
          simp [List.replicate_succ]]
      rw [List.append_assoc]
      rw [findFirstTok_skip_tok (regexToks wl) s hs htoks]
      exact ih
  have hff : findFirstTok (regexToks wl)
      (pre ++ (List.replicate (toNatDigits ds) (tokOf s)).flatten ++ post) =
        none := by
    rw [List.append_assoc]
    rw [findFirstTok_append_of_notin (regexToks wl) htoks37 pre _ hpre]
    exact hjoin (toNatDigits ds)
  have hv : visitP wl (f + 1)
      (expandReps (pre ++ 37 :: 40 :: s ++ 41 :: 123 :: ds ++ 125 :: post)) =
      ([pre ++ (List.replicate (toNatDigits ds) (tokOf s)).flatten ++ post],
        none) := by
    rw [hexp, visitP, hff]
  simp only [runWordList, hv, hmw]
  rw [emitLoop_none_noTime]
  simp

/-- C10 witness: `%(b){2}` with only `c` registered, instantiating
`run_rep_unregistered` (`%(b)%(b)` is emitted verbatim). -/
theorem run_rep_unregistered_witness :
    runWordList ⟨[(tokOf [99], ⟨[99], [[122]]⟩)], none⟩ 2 noTimeLimit
        ([] ++ 37 :: 40 :: [98] ++ 41 :: 123 :: [50] ++ 125 :: []) =
      ([[] ++ (List.replicate (toNatDigits [50]) (tokOf [98])).flatten ++ []],
        none) :=
  run_rep_unregistered _ 2 [98] [] [] [50] (by decide) rfl (by decide)
    (by decide) (by decide) (by decide) (by decide) (by decide) (by decide)

/-- C10 counterexample: in the template `"%(b%(a){2}"` (only `c`
registered), the substring `%(a){2}` is an occurrence of the form
`%(s){N}` with `s = "a"` unregistered, but it is *not* replaced by two
copies of `%(a)` — the scan matches the larger `%(b%(a){2}` — so the
emitted string differs from the claim's prediction `"%(b%(a)%(a)"`. -/
theorem run_rep_unregistered_ctr :
    runWordList ⟨[(tokOf [99], ⟨[99], [[122]]⟩)], none⟩ 2 noTimeLimit
        [37, 40, 98, 37, 40, 97, 41, 123, 50, 125] =
      ([[37, 40, 98, 37, 40, 97, 41, 37, 40, 98, 37, 40, 97, 41]], none) ∧
    ([37, 40, 98, 37, 40, 97, 41, 37, 40, 98, 37, 40, 97, 41] : Str) ≠
      [37, 40, 98, 37, 40, 97, 41, 37, 40, 97, 41] := by
  decide

/-! ## Claim C1 -/

/-- C1 (amended: values and the template's literal segments must contain no
`%`, so that no new token occurrence can be assembled across a substitution
boundary, and no `{`, so the preprocessing is inert): for a template with
exactly the two distinct placeholder tokens `%(a)` (bound to `M` values)
and `%(b)` (bound to `N` values) in that order, `run` with no limits emits
exactly the `M * N` strings of the product, enumerating the second
(rightmost) placeholder's values completely for each single value of the
first before the first advances. -/
theorem run_two_placeholders (a b : Str) (va vb : List Str)
    (pre mid post : Str) (fuel : Nat)
    (ha : goodName a) (hb : goodName b) (hab : a ≠ b)
    (hpre : (37 : Nat) ∉ pre ∧ (123 : Nat) ∉ pre)
    (hmid : (37 : Nat) ∉ mid ∧ (123 : Nat) ∉ mid)
    (hpost : (37 : Nat) ∉ post ∧ (123 : Nat) ∉ post)
    (hva : ∀ v ∈ va, (37 : Nat) ∉ v) (hvb : ∀ v ∈ vb, (37 : Nat) ∉ v)
    (hfuel : 3 ≤ fuel) :
    runWordList ⟨[(tokOf a, ⟨a, va⟩), (tokOf b, ⟨b, vb⟩)], none⟩ fuel
        noTimeLimit (pre ++ tokOf a ++ mid ++ tokOf b ++ post) =
      (va.flatMap (fun x => vb.map (fun y => pre ++ x ++ mid ++ y ++ post)),
        none) ∧
    (runWordList ⟨[(tokOf a, ⟨a, va⟩), (tokOf b, ⟨b, vb⟩)], none⟩ fuel
        noTimeLimit (pre ++ tokOf a ++ mid ++ tokOf b ++ post)).1.length =
      va.length * vb.length := by
  obtain ⟨f, rfl⟩ : ∃ f, fuel = f + 3 := ⟨fuel - 3, by omega⟩
  set wl : WordListM :=
    ⟨[(tokOf a, ⟨a, va⟩), (tokOf b, ⟨b, vb⟩)], none⟩ with hwl
  have hname41 : ∀ n : Str, goodName n → ∀ c ∈ n, c ≠ 41 :=
    fun n hn c hc => (hn c hc).2.2.1
  have h123tok : ∀ n : Str, goodName n → (123 : Nat) ∉ tokOf n := by
    intro n hn hm
    simp [tokOf] at hm
    exact (hn 123 hm).2.2.2.1 rfl
  have htoks : regexToks wl = [tokOf a, tokOf b] := rfl
  have htoks37 : ∀ t ∈ regexToks wl, ∃ u, t = 37 :: u := by
    intro t ht
    rw [htoks] at ht
    rcases List.mem_cons.mp ht with h | h
    · exact ⟨40 :: (a ++ [41]), by rw [h]; rfl⟩
    · rcases List.mem_cons.mp h with h | h
      · exact ⟨40 :: (b ++ [41]), by rw [h]; rfl⟩
      · simp at h
  -- the template, right-nested
  have htmpl : (pre ++ tokOf a ++ mid ++ tokOf b ++ post : Str) =
      pre ++ (tokOf a ++ (mid ++ (tokOf b ++ post))) := by simp
  -- preprocessing is inert: no brace anywhere
  have h123 : (123 : Nat) ∉ (pre ++ tokOf a ++ mid ++ tokOf b ++ post : Str) := by
    intro hm
    simp only [List.mem_append] at hm
    rcases hm with (((h | h) | h) | h) | h
    · exact hpre.2 h
    · exact h123tok a ha h
    · exact hmid.2 h
    · exact h123tok b hb h
    · exact hpost.2 h
  -- searching: the first token found in the template is %(a)
  have hff1 : findFirstTok (regexToks wl)
      (pre ++ (tokOf a ++ (mid ++ (tokOf b ++ post)))) = some (tokOf a) := by
    rw [findFirstTok_append_of_notin (regexToks wl) htoks37 pre _ hpre.1]
    apply findFirstTok_of_firstTokAt _ _ _ (by simp [tokOf])
    rw [htoks]
    exact List.find?_cons_of_pos _
      (by simpa using isPrefixOf_self_append (tokOf a) _)
  have hlookA : lookupTok wl.patterns (tokOf a) = some ⟨a, va⟩ := by
    unfold lookupTok
    rw [List.find?_cons_of_pos _ (by simp)]
    rfl
  have hne_tok : tokOf a ≠ tokOf b := fun h => hab (tokOf_inj h)
  have hlookB : lookupTok wl.patterns (tokOf b) = some ⟨b, vb⟩ := by
    unfold lookupTok
    rw [List.find?_cons_of_neg _ (by simp [hne_tok]),
      List.find?_cons_of_pos _ (by simp)]
    rfl
  -- substitution of the first token
  have hreplA : ∀ v : Str, replaceFirst (tokOf a) v
      (pre ++ (tokOf a ++ (mid ++ (tokOf b ++ post)))) =
      pre ++ (v ++ (mid ++ (tokOf b ++ post))) := by
    intro v
    rw [show (tokOf a : Str) = 37 :: (40 :: (a ++ [41])) from rfl]
    rw [replaceFirst_append_of_notin 37 _ v pre _ hpre.1]
    rw [show (37 :: (40 :: (a ++ [41])) : Str) = tokOf a from rfl]
    rw [replaceFirst_head (tokOf a) v _ (by simp [tokOf])]
  -- searching after the first substitution: %(b) is found
  have hff2 : ∀ v : Str, (37 : Nat) ∉ v → findFirstTok (regexToks wl)
      (pre ++ (v ++ (mid ++ (tokOf b ++ post)))) = some (tokOf b) := by
    intro v hv
    rw [findFirstTok_append_of_notin (regexToks wl) htoks37 pre _ hpre.1]
    rw [findFirstTok_append_of_notin (regexToks wl) htoks37 v _ hv]
    rw [findFirstTok_append_of_notin (regexToks wl) htoks37 mid _ hmid.1]
    apply findFirstTok_of_firstTokAt _ _ _ (by simp [tokOf])
    rw [htoks]
    unfold firstTokAt
    rw [List.find?_cons_of_neg _ (by
      intro hcon
      have hcon2 : List.isPrefixOf (tokOf a) (tokOf b ++ post) = true := hcon
      rw [tokOf_prefix_false a b post (hname41 a ha) (hname41 b hb) hab] at hcon2
      exact Bool.false_ne_true hcon2)]
    exact List.find?_cons_of_pos _
      (by simpa using isPrefixOf_self_append (tokOf b) _)
  -- substitution of the second token
  have hreplB : ∀ x : Str, (37 : Nat) ∉ x → ∀ y : Str,
      replaceFirst (tokOf b) y (pre ++ (x ++ (mid ++ (tokOf b ++ post)))) =
      pre ++ (x ++ (mid ++ (y ++ post))) := by
    intro x hx y
    rw [show (tokOf b : Str) = 37 :: (40 :: (b ++ [41])) from rfl]
    rw [replaceFirst_append_of_notin 37 _ y pre _ hpre.1]
    rw [replaceFirst_append_of_notin 37 _ y x _ hx]
    rw [replaceFirst_append_of_notin 37 _ y mid _ hmid.1]
    rw [show (37 :: (40 :: (b ++ [41])) : Str) = tokOf b from rfl]
    rw [replaceFirst_head (tokOf b) y _ (by simp [tokOf])]
  -- fully resolved strings contain no token
  have hff3 : ∀ x ∈ va, ∀ y ∈ vb, findFirstTok (regexToks wl)
      (pre ++ (x ++ (mid ++ (y ++ post)))) = none := by
    intro x hx y hy
    apply findFirstTok_none_of_notin _ htoks37
    intro hm
    simp only [List.mem_append] at hm
    rcases hm with h | h | h | h | h
    · exact hpre.1 h
    · exact hva x hx h
    · exact hmid.1 h
    · exact hvb y hy h
    · exact hpost.1 h
  -- the generator cascade, innermost level
  have hinner : ∀ x ∈ va, ∀ y ∈ vb, visitP wl (f + 1)
      (pre ++ (x ++ (mid ++ (y ++ post)))) =
      ([pre ++ (x ++ (mid ++ (y ++ post)))], none) := by
    intro x hx y hy
    rw [visitP, hff3 x hx y hy]
  -- middle level: one value of %(a) substituted, %(b) enumerated
  have hmidlv : ∀ x ∈ va, visitP wl (f + 2)
      (pre ++ (x ++ (mid ++ (tokOf b ++ post)))) =
      (vb.map (fun y => pre ++ (x ++ (mid ++ (y ++ post)))), none) := by
    intro x hx
    rw [visitP, hff2 x (hva x hx)]
    dsimp only
    rw [hlookB]
    dsimp only
    rw [seqResults_map_ok vb _
      (fun y => [pre ++ (x ++ (mid ++ (y ++ post)))])
      (fun y hy => by
        rw [hreplB x (hva x hx) y]
        exact hinner x hx y hy)]
    rw [flatMap_singleton_eq_map]
  -- top level: %(a) enumerated
  have htop : visitP wl (f + 3)
      (pre ++ (tokOf a ++ (mid ++ (tokOf b ++ post)))) =
      (va.flatMap (fun x => vb.map (fun y => pre ++ (x ++ (mid ++ (y ++ post))))),
        none) := by
    rw [visitP, hff1]
    dsimp only
    rw [hlookA]
    dsimp only
    rw [seqResults_map_ok va _
      (fun x => vb.map (fun y => pre ++ (x ++ (mid ++ (y ++ post)))))
      (fun x hx => by
        rw [hreplA x]
        exact hmidlv x hx)]
  -- assemble the run
  have key : runWordList wl (f + 3) noTimeLimit
      (pre ++ tokOf a ++ mid ++ tokOf b ++ post) =
      (va.flatMap (fun x => vb.map (fun y => pre ++ (x ++ (mid ++ (y ++ post))))),
        none) := by
    have hv : visitP wl (f + 3)
        (expandReps (pre ++ tokOf a ++ mid ++ tokOf b ++ post)) =
        (va.flatMap (fun x => vb.map (fun y => pre ++ (x ++ (mid ++ (y ++ post))))),
          none) := by
      rw [expandReps_id_of_no_brace _ h123, htmpl, htop]
    simp only [runWordList, hv]
    rw [emitLoop_none_noTime]
    simp
  constructor
  · rw [key]
    simp [List.append_assoc]
  · rw [key]
    exact length_flatMap_map va vb _

/-- C1 witness: template `A%(a)%(b)` with `a` bound to two values and `b`
to one, instantiating `run_two_placeholders`. -/
theorem run_two_placeholders_witness :
    runWordList ⟨[(tokOf [97], ⟨[97], [[49], [50]]⟩),
        (tokOf [98], ⟨[98], [[51]]⟩)], none⟩ 3 noTimeLimit
        ([65] ++ tokOf [97] ++ [] ++ tokOf [98] ++ []) =
      ([[49], [50]].flatMap (fun x => [[51]].map
        (fun y => [65] ++ x ++ [] ++ y ++ [])), none) ∧
    (runWordList ⟨[(tokOf [97], ⟨[97], [[49], [50]]⟩),
        (tokOf [98], ⟨[98], [[51]]⟩)], none⟩ 3 noTimeLimit
        ([65] ++ tokOf [97] ++ [] ++ tokOf [98] ++ [])).1.length =
      ([[49], [50]] : List Str).length * ([[51]] : List Str).length :=
  run_two_placeholders [97] [98] [[49], [50]] [[51]] [65] [] [] 3
    (by decide) (by decide) (by decide) (by decide) (by decide) (by decide)
    (by decide) (by decide) (by decide)

/-- C1 counterexample: tokens `%(a)` (bound to the single value `"%("`) and
`%(b)` (bound to `"1"`, `"2"`), template `"%(a)b)%(b)"` — the template has
exactly the two distinct tokens, each value contains no placeholder token,
no limits are set, yet `run` emits 4 strings, not M × N = 1 × 2 = 2: the
substituted value `"%("` joins with the literal text `"b)"` to form a new
occurrence of `%(b)`. -/
theorem run_two_placeholders_ctr :
    occursIn (tokOf [97]) [37, 40] = false ∧
    occursIn (tokOf [98]) [37, 40] = false ∧
    (runWordList ⟨[(tokOf [97], ⟨[97], [[37, 40]]⟩),
        (tokOf [98], ⟨[98], [[49], [50]]⟩)], none⟩ 8 noTimeLimit
        [37, 40, 97, 41, 98, 41, 37, 40, 98, 41]).1.length = 4 ∧
    ([[37, 40]] : List Str).length * ([[49], [50]] : List Str).length = 2 := by
  decide

end WLG
